import Mathlib

/-!
Shallow embedding of the excel-data-consolidator column-reconciliation core.

The embedded code is:
- `mapping_review_dialog.py` : `MappingReviewDialog.load_mappings` (initial
  mapping construction from the two headers, with exact matching and fuzzy
  suggestions) and `MappingReviewDialog.on_mapping_selected` (manual override
  of a mapping from the suggestion dropdown);
- `data_appender.py` : `append_data` (rename source columns per the mapping,
  intersect with the target schema, fill missing values, append rows, report
  statistics).

Tables are headers (lists of column names) plus rows of cells; a cell is
`Option String`, with `none` standing for a pandas missing value (NaN) and
`some s` for a present scalar rendered as a string. Python dicts that map
target columns to source columns are association lists in insertion order,
with insert-or-update semantics matching dict assignment. The fuzzywuzzy
scorer is an uninterpreted parameter `score`; `extract` models
`fuzzywuzzy.process.extract` (score every candidate, stable sort descending,
take the limit). The nondeterministic enumeration order that
`list(set(a) & set(b))` produces in `append_data` is an explicit parameter
`ord` constrained by `CommonEnum`.
-/

namespace ExcelConsolidator

/-- A table cell: `none` models a pandas missing value (NaN), `some s` a
present scalar value. -/
abbrev Cell := Option String

/-- A pandas DataFrame: an ordered header of column names and rows of cells
positionally aligned with the header. -/
structure Table where
  header : List String
  rows : List (List Cell)
deriving Repr, DecidableEq

/-- Well-formed table: column names are unique and every row has one cell per
column. -/
def Table.Wf (t : Table) : Prop :=
  t.header.Nodup ∧ ∀ r ∈ t.rows, r.length = t.header.length

instance (t : Table) : Decidable t.Wf := by
  unfold Table.Wf; infer_instance

/-- Index of the first occurrence of column name `c` in a header, as pandas
label lookup resolves a unique label to its position. -/
def colIndex (c : String) : List String → Option Nat
  | [] => none
  | x :: xs => if x = c then some 0 else (colIndex c xs).map (· + 1)

/-- Value of row `r` (aligned with header `h`) at column `c`; `none` when the
column is absent, which is how `pd.concat` fills cells of columns a frame
does not have. -/
def rowVal (h : List String) (r : List Cell) (c : String) : Cell :=
  match colIndex c h with
  | some i => r.getD i none
  | none => none

/-- Python dict assignment `d[k] = v`: update the value in place if the key
exists (keeping its insertion position), otherwise append the new binding. -/
def dictInsert (k v : String) (d : List (String × String)) : List (String × String) :=
  if d.any (fun p => p.1 = k) then
    d.map (fun p => if p.1 = k then (k, v) else p)
  else
    d ++ [(k, v)]

/-- Python dict lookup `d.get(k)`. -/
def dictGet (k : String) (d : List (String × String)) : Option String :=
  (d.find? (fun p => p.1 = k)).map (fun p => p.2)

/-- Insert a scored candidate into a descending-by-score list, after every
earlier candidate of greater or equal score (so the sort below is stable). -/
def insertDesc (p : String × Nat) : List (String × Nat) → List (String × Nat)
  | [] => [p]
  | q :: qs => if q.2 ≤ p.2 then p :: q :: qs else q :: insertDesc p qs

/-- Stable insertion sort, descending by score: ties stay in input order. -/
def sortDesc : List (String × Nat) → List (String × Nat)
  | [] => []
  | p :: ps => insertDesc p (sortDesc ps)

/-- Models `fuzzywuzzy.process.extract(query, choices, limit)`: score every
choice against the query, keep the `limit` best, descending by score with
ties in original choice order (a stable descending sort, as
`heapq.nlargest` produces). -/
def extract (score : String → String → Nat) (query : String)
    (choices : List String) (limit : Nat) : List (String × Nat) :=
  (sortDesc (choices.map (fun c => (c, score query c)))).take limit

/-- One row of the mapping review tree: the target column (item text 0), the
source column shown as mapped (item text 1, `none` when the text is the
placeholder "Not Mapped"), and the suggestion list loaded into the dropdown. -/
structure Entry where
  target : String
  chosen : Option String
  suggestions : List String
deriving Repr, DecidableEq

/-- The status vocabulary of the specification for an initial mapping entry. -/
inductive MStatus where
  | Exact
  | Suggested
  | Unmapped
deriving Repr, DecidableEq

/-- Status of an entry as `load_mappings` left it: a chosen source column
means the exact-match branch ran; otherwise the entry is Suggested exactly
when the dropdown holds at least one fuzzy suggestion. -/
def initStatus (e : Entry) : MStatus :=
  if e.chosen.isSome then .Exact
  else if e.suggestions = [] then .Unmapped
  else .Suggested

/-- The entry `load_mappings` builds for one target column: on an exact match
the source column is set and no dropdown is created; otherwise the entry
shows "Not Mapped" and the dropdown holds the fuzzy matches of score at
least 60 among the best 5. -/
def entryFor (score : String → String → Nat) (source_columns : List String)
    (target_col : String) : Entry :=
  if target_col ∈ source_columns then
    { target := target_col, chosen := some target_col, suggestions := [] }
  else
    { target := target_col, chosen := none,
      suggestions :=
        ((extract score target_col source_columns 5).filter
          (fun m => 60 ≤ m.2)).map (fun m => m.1) }

/-- One iteration of the `load_mappings` loop: build the tree entry for
`target_col`, and on an exact match also record
`manual_mappings[target_col] = target_col`. -/
def loadStep (score : String → String → Nat) (source_columns : List String)
    (acc : List Entry × List (String × String)) (target_col : String) :
    List Entry × List (String × String) :=
  if target_col ∈ source_columns then
    (acc.1 ++ [entryFor score source_columns target_col],
     dictInsert target_col target_col acc.2)
  else
    (acc.1 ++ [entryFor score source_columns target_col], acc.2)

/-- `MappingReviewDialog.load_mappings`: iterate the target columns in order,
starting from an empty tree and an empty `manual_mappings` dict. Returns the
tree entries and the dict. -/
def load_mappings (score : String → String → Nat)
    (source_columns target_columns : List String) :
    List Entry × List (String × String) :=
  target_columns.foldl (loadStep score source_columns) ([], [])

/-- `MappingReviewDialog.on_mapping_selected`: when the dropdown index is
positive the selected text is stored as the mapping for the target column
(and shown as item text 1); selecting index 0 (the "Select mapping..."
placeholder) does nothing. State is the `manual_mappings` dict. -/
def on_mapping_selected (currentIndex : Nat) (target_col currentText : String)
    (manual_mappings : List (String × String)) : List (String × String) :=
  if currentIndex > 0 then dictInsert target_col currentText manual_mappings
  else manual_mappings

/-- The rename loop of `append_data`: for each `(target_col, source_col)`
pair of `manual_mappings` in dict order, if `source_col` is currently a
column, `df.rename` replaces every header occurrence of `source_col` with
`target_col`; otherwise the pair is skipped. Renaming touches only the
header, never the cells. -/
def applyMappings : List (String × String) → List String → List String
  | [], h => h
  | (target_col, source_col) :: rest, h =>
      if source_col ∈ h then
        applyMappings rest (h.map (fun c => if c = source_col then target_col else c))
      else
        applyMappings rest h

/-- `fillna('')` on one cell: a missing value becomes the empty string. -/
def fillNA : Cell → Cell
  | none => some ""
  | some s => some s

/-- Step 4 of `append_data` on one row: every cell lying under a column whose
name is in `cols` has its missing value replaced by the empty string. -/
def fillnaCols (h : List String) (cols : List String) (r : List Cell) : List Cell :=
  (h.zip r).map (fun p => if p.1 ∈ cols then fillNA p.2 else p.2)

/-- Column selection `df[cols]`: the sub-frame with header `cols`, each row
rebuilt by label lookup. -/
def selectCols (t : Table) (cols : List String) : Table :=
  { header := cols,
    rows := t.rows.map (fun r => cols.map (fun c => rowVal t.header r c)) }

/-- `pd.concat([t1, t2], ignore_index=True)` along rows: the result header is
the first header followed by the columns only the second frame has; every
row is aligned to that header by label, absent columns filled with NaN. -/
def concatTables (t1 t2 : Table) : Table :=
  let h := t1.header ++ t2.header.filter (fun c => decide (c ∉ t1.header))
  { header := h,
    rows := t1.rows.map (fun r => h.map (fun c => rowVal t1.header r c))
        ++ t2.rows.map (fun r => h.map (fun c => rowVal t2.header r c)) }

/-- A list that `list(set(mappedHeader) & set(targetHeader))` may produce:
duplicate-free, and holding exactly the names occurring in both headers, in
an order Python does not fix (hash dependent). -/
def CommonEnum (mappedHeader targetHeader ord : List String) : Prop :=
  ord.Nodup ∧ (∀ c ∈ ord, c ∈ mappedHeader ∧ c ∈ targetHeader) ∧
    (∀ c ∈ mappedHeader, c ∈ targetHeader → c ∈ ord)

instance (mh th ord : List String) : Decidable (CommonEnum mh th ord) := by
  unfold CommonEnum; infer_instance

/-- The statistics dict returned by `append_data`. -/
structure Stats where
  source_columns : Nat
  target_columns : Nat
  mapped_columns : Nat
  appended_rows : Nat
deriving Repr, DecidableEq

/-- `append_data` after the two files are read into `source` and `target`
(file I/O elided): rename the source columns per `manual_mappings`, take
`ord` as the enumeration of the common columns, fill NaN with the empty
string on those columns, append the selected source sub-frame below the
target rows, and return the written table with the statistics dict. -/
def append_data (source target : Table) (manual_mappings : List (String × String))
    (ord : List String) : Table × Stats :=
  let mappedHeader := applyMappings manual_mappings source.header
  let mapped_source : Table :=
    { header := mappedHeader, rows := source.rows.map (fillnaCols mappedHeader ord) }
  let appended := concatTables target (selectCols mapped_source ord)
  (appended,
   { source_columns := source.header.length,
     target_columns := target.header.length,
     mapped_columns := ord.length,
     appended_rows := mapped_source.rows.length })

/-! ## Helper lemmas about label lookup -/

theorem colIndex_eq_none_iff (c : String) (h : List String) :
    colIndex c h = none ↔ c ∉ h := by
  induction h with
  | nil => simp [colIndex]
  | cons x xs ih =>
    by_cases hx : x = c
    · subst hx
      simp [colIndex]
    · simp only [colIndex, if_neg hx, List.mem_cons]
      cases hidx : colIndex c xs with
      | none =>
        simp only [Option.map_none']
        have hcx : c ∉ xs := ih.mp hidx
        constructor
        · intro _ hc
          rcases hc with hc | hc
          · exact hx hc.symm
          · exact hcx hc
        · intro _
          trivial
      | some j =>
        simp only [Option.map_some']
        have hcx : c ∈ xs := by
          by_contra hcn
          rw [ih.mpr hcn] at hidx
          cases hidx
        constructor
        · intro hno
          cases hno
        · intro hno
          exact absurd (Or.inr hcx) hno

theorem colIndex_lt_length {c : String} {h : List String} {i : Nat}
    (hi : colIndex c h = some i) : i < h.length := by
  induction h generalizing i with
  | nil => simp [colIndex] at hi
  | cons x xs ih =>
    by_cases hx : x = c
    · rw [colIndex, if_pos hx] at hi
      cases hi
      simp
    · rw [colIndex, if_neg hx] at hi
      cases hidx : colIndex c xs with
      | none =>
        rw [hidx] at hi
        cases hi
      | some j =>
        rw [hidx] at hi
        cases hi
        have := ih hidx
        simp only [List.length_cons]
        omega

theorem rowVal_map (h : List String) (f : String → Cell) (c : String) :
    rowVal h (h.map f) c = if c ∈ h then f c else none := by
  induction h with
  | nil => simp [rowVal, colIndex]
  | cons x xs ih =>
    by_cases hx : x = c
    · subst hx
      simp [rowVal, colIndex]
    · have hrhs : (if c ∈ x :: xs then f c else none)
          = (if c ∈ xs then f c else none) := by
        by_cases hc : c ∈ xs
        · rw [if_pos hc, if_pos (List.mem_cons_of_mem x hc)]
        · rw [if_neg hc, if_neg (by
            intro hm
            rcases List.mem_cons.mp hm with hm | hm
            · exact hx hm.symm
            · exact hc hm)]
      rw [hrhs]
      simp only [rowVal, colIndex, if_neg hx, List.map_cons]
      cases hidx : colIndex c xs with
      | none =>
        simp only [Option.map_none']
        rw [if_neg ((colIndex_eq_none_iff c xs).mp hidx)]
      | some j =>
        simp only [Option.map_some', List.getD_cons_succ]
        have hih := ih
        rw [rowVal, hidx] at hih
        exact hih

theorem map_rowVal_self {h : List String} {r : List Cell}
    (hnd : h.Nodup) (hlen : r.length = h.length) :
    h.map (fun c => rowVal h r c) = r := by
  induction h generalizing r with
  | nil =>
    cases r with
    | nil => rfl
    | cons y ys => simp at hlen
  | cons x xs ih =>
    cases r with
    | nil => simp at hlen
    | cons y ys =>
      have hx_not : x ∉ xs := (List.nodup_cons.mp hnd).1
      have hnd' : xs.Nodup := (List.nodup_cons.mp hnd).2
      have hlen' : ys.length = xs.length := by
        simpa using hlen
      simp only [List.map_cons, List.cons.injEq]
      constructor
      · simp [rowVal, colIndex]
      · have hpt : ∀ c ∈ xs, rowVal (x :: xs) (y :: ys) c = rowVal xs ys c := by
          intro c hc
          have hxc : x ≠ c := fun he => hx_not (he ▸ hc)
          simp only [rowVal, colIndex, if_neg hxc]
          cases hidx : colIndex c xs with
          | none => simp
          | some j => simp
        rw [List.map_congr_left hpt]
        exact ih hnd' hlen'

/-! ## Helper lemmas about renaming -/

theorem applyMappings_length (m : List (String × String)) (h : List String) :
    (applyMappings m h).length = h.length := by
  induction m generalizing h with
  | nil => rfl
  | cons p rest ih =>
    obtain ⟨t, s⟩ := p
    by_cases hs : s ∈ h
    · rw [applyMappings, if_pos hs, ih, List.length_map]
    · rw [applyMappings, if_neg hs, ih]

/-- The pointwise relation used to track one column name `c` through renames:
two header positions agree on whether they carry `c`. -/
def SameAt (c : String) (a b : String) : Prop := a = c ↔ b = c

theorem sameAt_refl (c : String) (h : List String) :
    List.Forall₂ (SameAt c) h h := by
  induction h with
  | nil => exact List.Forall₂.nil
  | cons x xs ih => exact List.Forall₂.cons Iff.rfl ih

theorem sameAt_trans {c : String} {h1 h2 h3 : List String}
    (h12 : List.Forall₂ (SameAt c) h1 h2) (h23 : List.Forall₂ (SameAt c) h2 h3) :
    List.Forall₂ (SameAt c) h1 h3 := by
  induction h12 generalizing h3 with
  | nil =>
    cases h23
    exact List.Forall₂.nil
  | cons hab htl ih =>
    cases h23 with
    | cons hbc htl2 => exact List.Forall₂.cons (hab.trans hbc) (ih htl2)

theorem sameAt_map_rename {c s t : String} (hs : s ≠ c) (ht : t ≠ c)
    (h : List String) :
    List.Forall₂ (SameAt c) h (h.map (fun x => if x = s then t else x)) := by
  induction h with
  | nil => exact List.Forall₂.nil
  | cons x xs ih =>
    refine List.Forall₂.cons ?_ ih
    show SameAt c x (if x = s then t else x)
    by_cases hx : x = s
    · rw [if_pos hx]
      constructor
      · intro hc
        exact absurd (hx ▸ hc) hs
      · intro hc
        exact absurd hc ht
    · rw [if_neg hx]
      exact Iff.rfl

theorem mem_iff_of_sameAt {c : String} {h1 h2 : List String}
    (hf : List.Forall₂ (SameAt c) h1 h2) : c ∈ h1 ↔ c ∈ h2 := by
  induction hf with
  | nil => simp
  | cons hab _ ih =>
    simp only [List.mem_cons]
    constructor
    · intro hc
      rcases hc with hc | hc
      · exact Or.inl (hab.mp hc.symm).symm
      · exact Or.inr (ih.mp hc)
    · intro hc
      rcases hc with hc | hc
      · exact Or.inl (hab.mpr hc.symm).symm
      · exact Or.inr (ih.mpr hc)

theorem colIndex_congr {c : String} {h1 h2 : List String}
    (hf : List.Forall₂ (SameAt c) h1 h2) : colIndex c h1 = colIndex c h2 := by
  induction hf with
  | nil => rfl
  | cons hab htl ih =>
    rename_i a b l1 l2
    by_cases ha : a = c
    · rw [colIndex, if_pos ha, colIndex, if_pos (hab.mp ha)]
    · rw [colIndex, if_neg ha, colIndex, if_neg (fun hb => ha (hab.mpr hb)), ih]

/-- A column name mentioned on neither side of any mapping pair keeps its
positions (and hence its first position) through the whole rename loop. -/
theorem applyMappings_sameAt {c : String} {m : List (String × String)}
    (hm : ∀ p ∈ m, p.1 ≠ c ∧ p.2 ≠ c) (h : List String) :
    List.Forall₂ (SameAt c) h (applyMappings m h) := by
  induction m generalizing h with
  | nil => exact sameAt_refl c h
  | cons p rest ih =>
    obtain ⟨t, s⟩ := p
    have hts := hm (t, s) (List.mem_cons_self _ _)
    have hrest : ∀ q ∈ rest, q.1 ≠ c ∧ q.2 ≠ c :=
      fun q hq => hm q (List.mem_cons_of_mem _ hq)
    by_cases hs : s ∈ h
    · rw [applyMappings, if_pos hs]
      exact sameAt_trans (sameAt_map_rename hts.2 hts.1 h) (ih hrest _)
    · rw [applyMappings, if_neg hs]
      exact ih hrest h

/-- First-position transfer for a single rename: when the new name `t` was
not previously a column, looking up `t` after renaming `s` to `t` lands on
the first position `s` occupied. -/
theorem colIndex_map_rename {t s : String} {h : List String} (ht : t ∉ h) :
    colIndex t (h.map (fun c => if c = s then t else c)) = colIndex s h := by
  induction h with
  | nil => rfl
  | cons x xs ih =>
    have hxt : x ≠ t := fun he => ht (he ▸ List.mem_cons_self x xs)
    have ht' : t ∉ xs := fun hm => ht (List.mem_cons_of_mem x hm)
    by_cases hx : x = s
    · subst hx
      simp [colIndex]
    · simp only [List.map_cons, if_neg hx]
      rw [colIndex, if_neg hxt, ih ht']
      rw [show colIndex s (x :: xs) = if x = s then some 0
            else (colIndex s xs).map (· + 1) from rfl, if_neg hx]

/-- Looking up a column after the NaN-fill step: the cell is the original
cell, filled exactly when the column is one of the filled columns. -/
theorem rowVal_fillnaCols {h : List String} {r : List Cell} {c : String}
    (hc : c ∈ h) (hlen : r.length = h.length) (cols : List String) :
    rowVal h (fillnaCols h cols r) c
      = (if c ∈ cols then fillNA (rowVal h r c) else rowVal h r c) := by
  induction h generalizing r with
  | nil => cases hc
  | cons x xs ih =>
    cases r with
    | nil => simp at hlen
    | cons y ys =>
      have hlen' : ys.length = xs.length := by simpa using hlen
      by_cases hx : x = c
      · subst hx
        by_cases hcol : x ∈ cols <;>
          simp [fillnaCols, rowVal, colIndex, hcol]
      · have hc' : c ∈ xs := by
          rcases List.mem_cons.mp hc with hcc | hcc
          · exact absurd hcc.symm hx
          · exact hcc
        have hih := ih hc' hlen'
        simp only [fillnaCols, List.zip_cons_cons, List.map_cons, rowVal,
          colIndex, if_neg hx] at hih ⊢
        cases hidx : colIndex c xs with
        | none => exact absurd hc' ((colIndex_eq_none_iff c xs).mp hidx)
        | some j =>
          rw [hidx] at hih
          simp only [Option.map_some', List.getD_cons_succ]
          exact hih

/-! ## Helper lemmas about the manual mappings dict -/

theorem dictGet_dictInsert_self (k v : String) (d : List (String × String)) :
    dictGet k (dictInsert k v d) = some v := by
  unfold dictInsert
  by_cases hany : d.any (fun p => p.1 = k)
  · rw [if_pos hany]
    induction d with
    | nil => simp at hany
    | cons p ps ih =>
      by_cases hpk : p.1 = k
      · simp [dictGet, List.find?, hpk]
      · have hany' : ps.any (fun q => q.1 = k) := by
          simp only [List.any_cons, decide_eq_true_eq, hpk, false_or] at hany
          simpa using hany
        simp only [List.map_cons, if_neg hpk, dictGet, List.find?,
          decide_eq_false hpk]
        rw [dictGet] at ih
        exact ih hany'
  · rw [if_neg hany]
    have hnone : ∀ p ∈ d, ¬ p.1 = k := by
      intro p hp
      by_contra hc
      exact hany (List.any_eq_true.mpr ⟨p, hp, by simpa using hc⟩)
    induction d with
    | nil => simp [dictGet, List.find?]
    | cons p ps ih =>
      have hpk : ¬ p.1 = k := hnone p (List.mem_cons_self _ _)
      have hrest : ∀ q ∈ ps, ¬ q.1 = k :=
        fun q hq => hnone q (List.mem_cons_of_mem _ hq)
      have hany' : ¬ ps.any (fun q => q.1 = k) := by
        intro hc
        rcases List.any_eq_true.mp hc with ⟨q, hq, hqk⟩
        exact hrest q hq (by simpa using hqk)
      simp only [List.cons_append, dictGet, List.find?, decide_eq_false hpk]
      have := ih hany' hrest
      rw [dictGet] at this
      exact this

theorem dictGet_dictInsert_ne {k k2 : String} (hne : k2 ≠ k) (v : String)
    (d : List (String × String)) :
    dictGet k2 (dictInsert k v d) = dictGet k2 d := by
  have hkk2 : ¬ k = k2 := fun hc => hne hc.symm
  unfold dictInsert
  by_cases hany : d.any (fun p => p.1 = k)
  · rw [if_pos hany]
    clear hany
    induction d with
    | nil => rfl
    | cons p ps ih =>
      by_cases hpk : p.1 = k
      · have hp2 : ¬ p.1 = k2 := fun hc => hne (hc ▸ hpk).symm.symm
        simp only [List.map_cons, if_pos hpk, dictGet, List.find?,
          decide_eq_false hkk2, decide_eq_false hp2]
        rw [dictGet] at ih
        exact ih
      · simp only [List.map_cons, if_neg hpk, dictGet, List.find?]
        by_cases hp2 : p.1 = k2
        · simp only [decide_eq_true hp2]
        · simp only [decide_eq_false hp2]
          rw [dictGet] at ih
          exact ih
  · rw [if_neg hany]
    clear hany
    induction d with
    | nil =>
      simp [dictGet, List.find?, decide_eq_false hkk2]
    | cons p ps ih =>
      simp only [List.cons_append, dictGet, List.find?]
      by_cases hp2 : p.1 = k2
      · simp only [decide_eq_true hp2]
      · simp only [decide_eq_false hp2]
        rw [dictGet] at ih
        exact ih

theorem dictGet_eq_none_of_keys {k : String} {d : List (String × String)}
    (hk : ∀ p ∈ d, ¬ p.1 = k) : dictGet k d = none := by
  rw [dictGet, List.find?_eq_none.mpr (by
    intro p hp
    simpa using hk p hp)]
  rfl

theorem dictInsert_keys {P : String → Prop} {d : List (String × String)}
    {k v : String} (hd : ∀ p ∈ d, P p.1) (hk : P k) :
    ∀ p ∈ dictInsert k v d, P p.1 := by
  unfold dictInsert
  by_cases hany : d.any (fun p => p.1 = k)
  · rw [if_pos hany]
    intro p hp
    rcases List.mem_map.mp hp with ⟨q, hq, hqp⟩
    by_cases hqk : q.1 = k
    · rw [if_pos hqk] at hqp
      rw [← hqp]
      exact hk
    · rw [if_neg hqk] at hqp
      rw [← hqp]
      exact hd q hq
  · rw [if_neg hany]
    intro p hp
    rcases List.mem_append.mp hp with hp | hp
    · exact hd p hp
    · rcases List.mem_singleton.mp hp with rfl
      exact hk

/-! ## Helper lemmas about the load_mappings fold -/

theorem foldl_loadStep_fst (score : String → String → Nat)
    (source_columns : List String) :
    ∀ (tgt : List String) (acc : List Entry × List (String × String)),
      (tgt.foldl (loadStep score source_columns) acc).1
        = acc.1 ++ tgt.map (entryFor score source_columns) := by
  intro tgt
  induction tgt with
  | nil =>
    intro acc
    simp
  | cons t ts ih =>
    intro acc
    have hstep : (loadStep score source_columns acc t).1
        = acc.1 ++ [entryFor score source_columns t] := by
      unfold loadStep
      by_cases ht : t ∈ source_columns
      · rw [if_pos ht]
      · rw [if_neg ht]
    rw [List.foldl_cons, ih, hstep, List.append_assoc, List.map_cons,
      List.singleton_append]

theorem foldl_loadStep_dict_preserved (score : String → String → Nat)
    (source_columns : List String) (tc : String) :
    ∀ (tgt : List String) (acc : List Entry × List (String × String)),
      dictGet tc acc.2 = some tc →
      dictGet tc (tgt.foldl (loadStep score source_columns) acc).2 = some tc := by
  intro tgt
  induction tgt with
  | nil =>
    intro acc hacc
    exact hacc
  | cons t ts ih =>
    intro acc hacc
    rw [List.foldl_cons]
    refine ih _ ?_
    unfold loadStep
    by_cases ht : t ∈ source_columns
    · rw [if_pos ht]
      by_cases htc : t = tc
      · subst htc
        exact dictGet_dictInsert_self t t acc.2
      · rw [dictGet_dictInsert_ne (fun hc => htc hc.symm) t acc.2]
        exact hacc
    · rw [if_neg ht]
      exact hacc

theorem foldl_loadStep_dict_exact (score : String → String → Nat)
    (source_columns : List String) (tc : String) (hsrc : tc ∈ source_columns) :
    ∀ (tgt : List String) (acc : List Entry × List (String × String)),
      tc ∈ tgt →
      dictGet tc (tgt.foldl (loadStep score source_columns) acc).2 = some tc := by
  intro tgt
  induction tgt with
  | nil =>
    intro acc htc
    cases htc
  | cons t ts ih =>
    intro acc htc
    rw [List.foldl_cons]
    by_cases ht : t = tc
    · subst ht
      refine foldl_loadStep_dict_preserved score source_columns t ts _ ?_
      unfold loadStep
      rw [if_pos hsrc]
      exact dictGet_dictInsert_self t t acc.2
    · rcases List.mem_cons.mp htc with hc | hc
      · exact absurd hc.symm ht
      · exact ih _ hc

theorem foldl_loadStep_dict_keys (score : String → String → Nat)
    (source_columns : List String) :
    ∀ (tgt : List String) (acc : List Entry × List (String × String)),
      (∀ p ∈ acc.2, p.1 ∈ source_columns) →
      ∀ p ∈ (tgt.foldl (loadStep score source_columns) acc).2,
        p.1 ∈ source_columns := by
  intro tgt
  induction tgt with
  | nil =>
    intro acc hacc
    exact hacc
  | cons t ts ih =>
    intro acc hacc
    rw [List.foldl_cons]
    refine ih _ ?_
    unfold loadStep
    by_cases ht : t ∈ source_columns
    · rw [if_pos ht]
      exact dictInsert_keys hacc ht
    · rw [if_neg ht]
      exact hacc

/-! ## Helper lemmas about the merge -/

theorem filter_not_mem_nil {l h : List String} (hsub : ∀ c ∈ l, c ∈ h) :
    l.filter (fun c => decide (c ∉ h)) = [] := by
  rw [List.filter_eq_nil_iff]
  intro c hc
  simpa using hsub c hc

theorem map_proj_self {t : Table} (hT : t.Wf) :
    t.rows.map (fun r => t.header.map (fun c => rowVal t.header r c)) = t.rows := by
  have hpt : ∀ r ∈ t.rows,
      t.header.map (fun c => rowVal t.header r c) = id r :=
    fun r hr => map_rowVal_self hT.1 (hT.2 r hr)
  rw [List.map_congr_left hpt, List.map_id]

/-! ## Claim theorems -/

/-- C1. For every pair of well-formed tables and every finalized mapping (the
renamed header staying duplicate-free, as every mapping built by the dialog
guarantees), the merged table has the target header, exactly
`len(target_table) + len(source_table)` rows, the target rows unchanged and
in order as a prefix, and one appended row per source row — also when no
source column survives the common-column intersection. -/
theorem append_data_row_structure
    (source target : Table) (manual_mappings : List (String × String))
    (ord : List String)
    (hT : target.Wf)
    (hmapped : (applyMappings manual_mappings source.header).Nodup)
    (hord : CommonEnum (applyMappings manual_mappings source.header)
      target.header ord) :
    (append_data source target manual_mappings ord).1.header = target.header ∧
    (append_data source target manual_mappings ord).1.rows.length
      = target.rows.length + source.rows.length ∧
    (append_data source target manual_mappings ord).1.rows.take
      target.rows.length = target.rows ∧
    ((append_data source target manual_mappings ord).1.rows.drop
      target.rows.length).length = source.rows.length := by
  have hsub : ∀ c ∈ ord, c ∈ target.header :=
    fun c hc => (hord.2.1 c hc).2
  have hfil : ord.filter (fun c => decide (c ∉ target.header)) = [] :=
    filter_not_mem_nil hsub
  simp only [append_data, concatTables, selectCols, hfil, List.append_nil]
  refine ⟨trivial, ?_, ?_, ?_⟩
  · simp [map_proj_self hT]
  · rw [map_proj_self hT, List.take_left]
  · simp [map_proj_self hT]

/-- C1 witness: a concrete merge where no source column survives the
intersection still appends one row per source row below the unchanged
target rows. -/
theorem append_data_row_structure_witness :
    (Table.Wf ⟨["B"], [[some "y"]]⟩ ∧
      (applyMappings [] (Table.header ⟨["A"], [[some "x"], [none]]⟩)).Nodup ∧
      CommonEnum (applyMappings [] (Table.header ⟨["A"], [[some "x"], [none]]⟩))
        ["B"] []) ∧
    ((append_data ⟨["A"], [[some "x"], [none]]⟩ ⟨["B"], [[some "y"]]⟩
        [] []).1.header = ["B"] ∧
      (append_data ⟨["A"], [[some "x"], [none]]⟩ ⟨["B"], [[some "y"]]⟩
        [] []).1.rows.length = 1 + 2 ∧
      (append_data ⟨["A"], [[some "x"], [none]]⟩ ⟨["B"], [[some "y"]]⟩
        [] []).1.rows.take 1 = [[some "y"]] ∧
      ((append_data ⟨["A"], [[some "x"], [none]]⟩ ⟨["B"], [[some "y"]]⟩
        [] []).1.rows.drop 1).length = 2) :=
  ⟨⟨by decide, by decide, by decide⟩,
    append_data_row_structure ⟨["A"], [[some "x"], [none]]⟩ ⟨["B"], [[some "y"]]⟩
      [] [] (by decide) (by decide) (by decide)⟩

/-- C5 counterexample: on one and the same input, two different orders are
both legitimate enumerations of `list(set(renamed) & set(target))`, so the
common-column order applied when building output columns is not determined
by the inputs (Python hash randomization picks one per process). -/
theorem commonEnum_order_not_unique :
    CommonEnum (applyMappings [("Name", "Name"), ("Email", "Email")]
      ["Name", "Email", "Phone"]) ["Name", "Email"] ["Name", "Email"] ∧
    CommonEnum (applyMappings [("Name", "Name"), ("Email", "Email")]
      ["Name", "Email", "Phone"]) ["Name", "Email"] ["Email", "Name"] ∧
    ["Name", "Email"] ≠ ["Email", "Name"] := by
  decide

/-- C5 (amended). The merged table and the statistics are invariant under the
enumeration order of the common columns: two runs of `append_data` on
identical source table, target table and finalized mapping return identical
results even though the applied order itself may differ between runs. -/
theorem append_data_order_invariant
    (source target : Table) (manual_mappings : List (String × String))
    (ord1 ord2 : List String)
    (h1 : CommonEnum (applyMappings manual_mappings source.header)
      target.header ord1)
    (h2 : CommonEnum (applyMappings manual_mappings source.header)
      target.header ord2) :
    append_data source target manual_mappings ord1
      = append_data source target manual_mappings ord2 := by
  have hmem : ∀ c, c ∈ ord1 ↔ c ∈ ord2 := by
    intro c
    constructor
    · intro hc
      exact h2.2.2 c (h1.2.1 c hc).1 (h1.2.1 c hc).2
    · intro hc
      exact h1.2.2 c (h2.2.1 c hc).1 (h2.2.1 c hc).2
  have hlen : ord1.length = ord2.length := by
    have hfin : ord1.toFinset = ord2.toFinset := by
      ext c
      simp [List.mem_toFinset, hmem c]
    calc ord1.length = ord1.toFinset.card :=
          (List.toFinset_card_of_nodup h1.1).symm
      _ = ord2.toFinset.card := by rw [hfin]
      _ = ord2.length := List.toFinset_card_of_nodup h2.1
  have hfill : ∀ r, fillnaCols (applyMappings manual_mappings source.header)
      ord1 r = fillnaCols (applyMappings manual_mappings source.header) ord2 r := by
    intro r
    unfold fillnaCols
    refine List.map_congr_left ?_
    intro p _
    by_cases hc : p.1 ∈ ord1
    · rw [if_pos hc, if_pos ((hmem p.1).mp hc)]
    · rw [if_neg hc, if_neg (fun hm => hc ((hmem p.1).mpr hm))]
  have hfil1 : ord1.filter (fun c => decide (c ∉ target.header)) = [] :=
    filter_not_mem_nil (fun c hc => (h1.2.1 c hc).2)
  have hfil2 : ord2.filter (fun c => decide (c ∉ target.header)) = [] :=
    filter_not_mem_nil (fun c hc => (h2.2.1 c hc).2)
  simp only [append_data, concatTables, selectCols, hfil1, hfil2,
    List.append_nil]
  congr 1
  · congr 1
    congr 1
    simp only [List.map_map]
    refine List.map_congr_left ?_
    intro r _
    simp only [Function.comp]
    refine List.map_congr_left ?_
    intro c _
    rw [rowVal_map, rowVal_map, hfill r]
    by_cases hc : c ∈ ord1
    · rw [if_pos hc, if_pos ((hmem c).mp hc)]
    · rw [if_neg hc, if_neg (fun hm => hc ((hmem c).mpr hm))]
  · simp [hlen]

/-- C5 witness: instantiating the invariance theorem on the two orders of the
counterexample gives literally equal outputs. -/
theorem append_data_order_invariant_witness :
    (CommonEnum (applyMappings [("Name", "Name"), ("Email", "Email")]
        ["Name", "Email", "Phone"]) ["Name", "Email"] ["Name", "Email"] ∧
      CommonEnum (applyMappings [("Name", "Name"), ("Email", "Email")]
        ["Name", "Email", "Phone"]) ["Name", "Email"] ["Email", "Name"]) ∧
    append_data ⟨["Name", "Email", "Phone"], [[some "a", some "b", none]]⟩
        ⟨["Name", "Email"], [[some "c", some "d"]]⟩
        [("Name", "Name"), ("Email", "Email")] ["Name", "Email"]
      = append_data ⟨["Name", "Email", "Phone"], [[some "a", some "b", none]]⟩
        ⟨["Name", "Email"], [[some "c", some "d"]]⟩
        [("Name", "Name"), ("Email", "Email")] ["Email", "Name"] :=
  ⟨⟨by decide, by decide⟩,
    append_data_order_invariant
      ⟨["Name", "Email", "Phone"], [[some "a", some "b", none]]⟩
      ⟨["Name", "Email"], [[some "c", some "d"]]⟩
      [("Name", "Name"), ("Email", "Email")] ["Name", "Email"] ["Email", "Name"]
      (by decide) (by decide)⟩

/-- C9. The statistics record of every merge call: `source_columns` is the
source header length before mapping, `target_columns` the target header
length, `mapped_columns` the number of common columns (the cardinality of
the renamed-source and target header intersection), and `appended_rows` the
source row count, however many columns survived the intersection. -/
theorem append_data_statistics
    (source target : Table) (manual_mappings : List (String × String))
    (ord : List String)
    (hord : CommonEnum (applyMappings manual_mappings source.header)
      target.header ord) :
    (append_data source target manual_mappings ord).2.source_columns
      = source.header.length ∧
    (append_data source target manual_mappings ord).2.target_columns
      = target.header.length ∧
    (append_data source target manual_mappings ord).2.mapped_columns
      = ((applyMappings manual_mappings source.header).toFinset
          ∩ target.header.toFinset).card ∧
    (append_data source target manual_mappings ord).2.appended_rows
      = source.rows.length := by
  refine ⟨rfl, rfl, ?_, by simp [append_data]⟩
  have hfin : ord.toFinset
      = (applyMappings manual_mappings source.header).toFinset
        ∩ target.header.toFinset := by
    ext c
    simp only [List.mem_toFinset, Finset.mem_inter]
    constructor
    · intro hc
      exact hord.2.1 c hc
    · intro hc
      exact hord.2.2 c hc.1 hc.2
  have : (append_data source target manual_mappings ord).2.mapped_columns
      = ord.length := rfl
  rw [this, ← List.toFinset_card_of_nodup hord.1, hfin]

/-- C9 witness: the scenario of the specification (3 source columns and
rows, 2 target columns, both target columns mapped exactly) yields the
statistics 3, 2, 2, 3. -/
theorem append_data_statistics_witness :
    CommonEnum (applyMappings [("Name", "Name"), ("Email", "Email")]
      (Table.header ⟨["Name", "Email", "Phone"],
        [[some "a", some "b", none], [some "c", none, some "d"],
          [none, none, none]]⟩)) ["Name", "Email"] ["Email", "Name"] ∧
    (append_data ⟨["Name", "Email", "Phone"],
        [[some "a", some "b", none], [some "c", none, some "d"],
          [none, none, none]]⟩
      ⟨["Name", "Email"], [[some "t1", some "t2"], [some "t3", some "t4"]]⟩
      [("Name", "Name"), ("Email", "Email")] ["Email", "Name"]).2.source_columns
        = 3 ∧
    (append_data ⟨["Name", "Email", "Phone"],
        [[some "a", some "b", none], [some "c", none, some "d"],
          [none, none, none]]⟩
      ⟨["Name", "Email"], [[some "t1", some "t2"], [some "t3", some "t4"]]⟩
      [("Name", "Name"), ("Email", "Email")]
        ["Email", "Name"]).2.mapped_columns = 2 ∧
    (append_data ⟨["Name", "Email", "Phone"],
        [[some "a", some "b", none], [some "c", none, some "d"],
          [none, none, none]]⟩
      ⟨["Name", "Email"], [[some "t1", some "t2"], [some "t3", some "t4"]]⟩
      [("Name", "Name"), ("Email", "Email")]
        ["Email", "Name"]).2.appended_rows = 3 := by
  have h := append_data_statistics
    ⟨["Name", "Email", "Phone"],
      [[some "a", some "b", none], [some "c", none, some "d"],
        [none, none, none]]⟩
    ⟨["Name", "Email"], [[some "t1", some "t2"], [some "t3", some "t4"]]⟩
    [("Name", "Name"), ("Email", "Email")] ["Email", "Name"] (by decide)
  exact ⟨by decide, h.1, by rw [h.2.2.1]; decide, h.2.2.2⟩

/-- C10 counterexample: source column "A" coincides with target column "A"
and the pair ("A", "A") appears nowhere in the mapping, yet the mapping
entry ("B", "A") renames "A" away, so "A" is not in the renamed header, is
excluded from the common columns (the only valid enumeration is ["B"]), and
is not counted: `mapped_columns` is 1, counting only "B". -/
theorem coincident_column_renamed_away :
    "A" ∈ ["A"] ∧ "A" ∈ ["A", "B"] ∧
    (("A", "A") ∉ ([("B", "A")] : List (String × String))) ∧
    applyMappings [("B", "A")] ["A"] = ["B"] ∧
    "A" ∉ applyMappings [("B", "A")] ["A"] ∧
    CommonEnum (applyMappings [("B", "A")] ["A"]) ["A", "B"] ["B"] ∧
    "A" ∉ (["B"] : List String) ∧
    (append_data ⟨["A"], [[some "x"]]⟩ ⟨["A", "B"], []⟩ [("B", "A")]
      ["B"]).2.mapped_columns = 1 := by
  decide

/-- C10 (amended). A source column whose name coincides with a target column
name and which is mentioned on neither side of any pair of the finalized
mapping survives the rename loop, is included in `common_columns` (hence in
the `mapped_columns` count), and its values, NaN filled with the empty
string, are copied into the appended rows. -/
theorem append_data_untouched_common_column
    (source target : Table) (manual_mappings : List (String × String))
    (ord : List String) (c : String)
    (hS : source.Wf)
    (hcS : c ∈ source.header) (hcT : c ∈ target.header)
    (hA : ∀ p ∈ manual_mappings, p.1 ≠ c ∧ p.2 ≠ c)
    (hord : CommonEnum (applyMappings manual_mappings source.header)
      target.header ord) :
    c ∈ ord ∧
    (append_data source target manual_mappings ord).2.mapped_columns
      = ord.length ∧
    ((append_data source target manual_mappings ord).1.rows.drop
        target.rows.length).map
      (fun row =>
        rowVal (append_data source target manual_mappings ord).1.header row c)
      = source.rows.map (fun r => fillNA (rowVal source.header r c)) := by
  have hsame := applyMappings_sameAt hA source.header
  have hcM : c ∈ applyMappings manual_mappings source.header :=
    (mem_iff_of_sameAt hsame).mp hcS
  have hcord : c ∈ ord := hord.2.2 c hcM hcT
  have hidx : colIndex c source.header
      = colIndex c (applyMappings manual_mappings source.header) :=
    colIndex_congr hsame
  have hfil : ord.filter (fun x => decide (x ∉ target.header)) = [] :=
    filter_not_mem_nil (fun x hx => (hord.2.1 x hx).2)
  refine ⟨hcord, rfl, ?_⟩
  simp only [append_data, concatTables, selectCols, hfil, List.append_nil]
  rw [List.drop_left' (by rw [List.length_map])]
  simp only [List.map_map]
  refine List.map_congr_left ?_
  intro r hr
  simp only [Function.comp]
  rw [rowVal_map, if_pos hcT, rowVal_map, if_pos hcord,
    rowVal_fillnaCols hcM (by rw [applyMappings_length]; exact hS.2 r hr) ord,
    if_pos hcord]
  rw [rowVal, rowVal, ← hidx]

/-- C10 witness: an untouched coinciding column ("Name", absent from the
mapping) has its values copied into the appended rows, with the NaN of the
third source row becoming the empty string. -/
theorem append_data_untouched_common_column_witness :
    (Table.Wf ⟨["Name", "Phone"], [[some "a", some "p"], [none, none]]⟩ ∧
      "Name" ∈ (["Name", "Phone"] : List String) ∧
      "Name" ∈ (["Name", "Email"] : List String) ∧
      (∀ p ∈ ([("Email", "Phone")] : List (String × String)),
        p.1 ≠ "Name" ∧ p.2 ≠ "Name") ∧
      CommonEnum (applyMappings [("Email", "Phone")]
        (Table.header ⟨["Name", "Phone"], [[some "a", some "p"], [none, none]]⟩))
        ["Name", "Email"] ["Email", "Name"]) ∧
    "Name" ∈ (["Email", "Name"] : List String) ∧
    (append_data ⟨["Name", "Phone"], [[some "a", some "p"], [none, none]]⟩
      ⟨["Name", "Email"], [[some "t", some "u"]]⟩ [("Email", "Phone")]
      ["Email", "Name"]).2.mapped_columns = 2 ∧
    ((append_data ⟨["Name", "Phone"], [[some "a", some "p"], [none, none]]⟩
        ⟨["Name", "Email"], [[some "t", some "u"]]⟩ [("Email", "Phone")]
        ["Email", "Name"]).1.rows.drop
          (Table.rows ⟨["Name", "Email"], [[some "t", some "u"]]⟩).length).map
      (fun row =>
        rowVal (append_data ⟨["Name", "Phone"],
            [[some "a", some "p"], [none, none]]⟩
          ⟨["Name", "Email"], [[some "t", some "u"]]⟩ [("Email", "Phone")]
          ["Email", "Name"]).1.header row "Name")
      = [some "a", some ""] := by
  have h := append_data_untouched_common_column
    ⟨["Name", "Phone"], [[some "a", some "p"], [none, none]]⟩
    ⟨["Name", "Email"], [[some "t", some "u"]]⟩ [("Email", "Phone")]
    ["Email", "Name"] "Name" (by decide) (by decide) (by decide) (by decide)
    (by decide)
  exact ⟨⟨by decide, by decide, by decide, by decide, by decide⟩, h.1,
    h.2.1, by rw [h.2.2]; decide⟩

/-- C2 counterexample: with the mapping pairs ("T1", "S") and ("T2", "S")
referencing the same source column "S", the renamed view holds the data of
"S" under "T1" only; no column "T2" exists, so the second referencing
target column does not receive the value — rename is a move, not a fan-out
copy. -/
theorem fan_out_not_copied :
    applyMappings [("T1", "S"), ("T2", "S")] ["S"] = ["T1"] ∧
    rowVal (applyMappings [("T1", "S"), ("T2", "S")] ["S"])
      [some "v"] "T1" = some "v" ∧
    "T2" ∉ applyMappings [("T1", "S"), ("T2", "S")] ["S"] ∧
    rowVal (applyMappings [("T1", "S"), ("T2", "S")] ["S"])
      [some "v"] "T2" = none := by
  decide

/-- C2 (amended). When two mapping pairs reference the same source column
`s` (and the two target names are fresh), only the first pair performs a
rename: the result is `h` with `s` replaced by `t1`, `s` is no longer a
column, which makes the second pair skip (its membership test fails), `t2`
is not a column of the renamed view, and every row exposes under `t1`
exactly the value it had under `s`. -/
theorem applyMappings_same_source_first_wins
    (h : List String) (s t1 t2 : String)
    (hs : s ∈ h) (ht1 : t1 ∉ h) (ht2 : t2 ∉ h) (hne : t2 ≠ t1) :
    applyMappings [(t1, s), (t2, s)] h
      = h.map (fun c => if c = s then t1 else c) ∧
    s ∉ h.map (fun c => if c = s then t1 else c) ∧
    t2 ∉ h.map (fun c => if c = s then t1 else c) ∧
    ∀ r : List Cell,
      rowVal (h.map (fun c => if c = s then t1 else c)) r t1
        = rowVal h r s := by
  have ht1s : t1 ≠ s := fun he => ht1 (he ▸ hs)
  have hsnot : s ∉ h.map (fun c => if c = s then t1 else c) := by
    intro hm
    rcases List.mem_map.mp hm with ⟨a, _, hfa⟩
    by_cases has : a = s
    · rw [if_pos has] at hfa
      exact ht1s hfa
    · rw [if_neg has] at hfa
      exact has hfa
  refine ⟨?_, hsnot, ?_, ?_⟩
  · simp only [applyMappings, if_pos hs, if_neg hsnot]
  · intro hm
    rcases List.mem_map.mp hm with ⟨a, ha, hfa⟩
    by_cases has : a = s
    · rw [if_pos has] at hfa
      exact hne hfa.symm
    · rw [if_neg has] at hfa
      exact ht2 (hfa ▸ ha)
  · intro r
    rw [rowVal, rowVal, colIndex_map_rename ht1]

/-- C2 witness: on header ["S", "X"], mapping pairs ("T1", "S") and
("T2", "S"), the renamed header is ["T1", "X"], "S" and "T2" are gone, and
the row value under "T1" is the old value under "S". -/
theorem applyMappings_same_source_first_wins_witness :
    ("S" ∈ (["S", "X"] : List String) ∧
      "T1" ∉ (["S", "X"] : List String) ∧
      "T2" ∉ (["S", "X"] : List String) ∧ ("T2" : String) ≠ "T1") ∧
    applyMappings [("T1", "S"), ("T2", "S")] ["S", "X"]
      = (["S", "X"] : List String).map (fun c => if c = "S" then "T1" else c) ∧
    "S" ∉ (["S", "X"] : List String).map (fun c => if c = "S" then "T1" else c) ∧
    "T2" ∉ (["S", "X"] : List String).map (fun c => if c = "S" then "T1" else c) ∧
    ∀ r : List Cell,
      rowVal ((["S", "X"] : List String).map
        (fun c => if c = "S" then "T1" else c)) r "T1"
        = rowVal ["S", "X"] r "S" :=
  ⟨⟨by decide, by decide, by decide, by decide⟩,
    applyMappings_same_source_first_wins ["S", "X"] "S" "T1" "T2"
      (by decide) (by decide) (by decide) (by decide)⟩

/-- C3. Evaluating `load_mappings` at the duplicate target header
["Name", "Name"] (source header ["Name"]): the loop runs to completion with
no failure of any kind, producing two tree rows and a `manual_mappings`
dict in which the second assignment silently overwrote the first, leaving a
single binding — there is no DuplicateColumn error anywhere in the code. -/
theorem load_mappings_duplicate_target_no_error :
    load_mappings (fun _ _ => 0) ["Name"] ["Name", "Name"]
      = ([⟨"Name", some "Name", []⟩, ⟨"Name", some "Name", []⟩],
          [("Name", "Name")]) ∧
    (load_mappings (fun _ _ => 0) ["Name"] ["Name", "Name"]).2.length = 1 := by
  decide

/-- C4. Evaluating `on_mapping_selected` with a selection text "Phone" that
is absent from the source header ["Name"]: the function performs no
validation against the source header, stores the binding anyway, and has no
failure path — there is no UnresolvedReference error, and the mapping is
changed rather than left unchanged. -/
theorem on_mapping_selected_no_validation :
    on_mapping_selected 1 "Email" "Phone" [] = [("Email", "Phone")] ∧
    "Phone" ∉ (["Name"] : List String) := by
  decide

/-- C8 counterexample: with the entry ("A", "B") already chosen, selecting
the sentinel (dropdown index 0, text "Select mapping...") leaves the
mapping exactly as it was: the chosen source column "B" is retained, not
cleared, and no revert to Unmapped happens. -/
theorem sentinel_does_not_revert :
    on_mapping_selected 0 "A" "Select mapping..." [("A", "B")]
      = [("A", "B")] ∧
    dictGet "A" (on_mapping_selected 0 "A" "Select mapping..." [("A", "B")])
      = some "B" := by
  decide

/-- C8 (amended). Selecting the sentinel entry (dropdown index 0) is a
no-op: `on_mapping_selected` returns the `manual_mappings` dict unchanged
for every state, so a previously chosen source column is retained. -/
theorem on_mapping_selected_sentinel_noop
    (target_col currentText : String) (d : List (String × String)) :
    on_mapping_selected 0 target_col currentText d = d := by
  simp [on_mapping_selected]

/-- C6. Every target column whose name occurs exactly (case-sensitively) in
the source header gets an entry with the chosen source column equal to that
name, an empty suggestion list, status Exact, and the dict binding
`manual_mappings[target_col] = target_col`. -/
theorem load_mappings_exact_match
    (score : String → String → Nat) (source_columns target_columns : List String)
    (tc : String) (htc : tc ∈ target_columns) (hsrc : tc ∈ source_columns) :
    (load_mappings score source_columns target_columns).1
      = target_columns.map (entryFor score source_columns) ∧
    entryFor score source_columns tc = ⟨tc, some tc, []⟩ ∧
    initStatus (entryFor score source_columns tc) = MStatus.Exact ∧
    dictGet tc (load_mappings score source_columns target_columns).2
      = some tc := by
  refine ⟨?_, ?_, ?_, ?_⟩
  · rw [load_mappings, foldl_loadStep_fst]
    simp
  · rw [entryFor, if_pos hsrc]
  · rw [entryFor, if_pos hsrc]
    rfl
  · exact foldl_loadStep_dict_exact score source_columns tc hsrc
      target_columns ([], []) htc

/-- C6 witness: source header with three columns, target header with two,
"Name" is an exact match. -/
theorem load_mappings_exact_match_witness :
    ("Name" ∈ (["Name", "Email"] : List String) ∧
      "Name" ∈ (["Name", "Email", "Phone"] : List String)) ∧
    (load_mappings (fun _ _ => 0) ["Name", "Email", "Phone"]
        ["Name", "Email"]).1
      = (["Name", "Email"] : List String).map
          (entryFor (fun _ _ => 0) ["Name", "Email", "Phone"]) ∧
    entryFor (fun _ _ => 0) ["Name", "Email", "Phone"] "Name"
      = ⟨"Name", some "Name", []⟩ ∧
    initStatus (entryFor (fun _ _ => 0) ["Name", "Email", "Phone"] "Name")
      = MStatus.Exact ∧
    dictGet "Name" (load_mappings (fun _ _ => 0) ["Name", "Email", "Phone"]
        ["Name", "Email"]).2 = some "Name" :=
  ⟨⟨by decide, by decide⟩,
    load_mappings_exact_match (fun _ _ => 0) ["Name", "Email", "Phone"]
      ["Name", "Email"] "Name" (by decide) (by decide)⟩

/-- C7. Every target column with no exact match in the source header gets an
entry with no chosen source column (and no dict binding), whose suggestion
list is the top-5 fuzzy candidates filtered to scores of at least 60; its
status is Suggested exactly when that filtered list is non-empty and
Unmapped exactly when it is empty. -/
theorem load_mappings_fuzzy_suggestions
    (score : String → String → Nat) (source_columns target_columns : List String)
    (tc : String) (htc : tc ∈ target_columns) (hsrc : tc ∉ source_columns) :
    (load_mappings score source_columns target_columns).1
      = target_columns.map (entryFor score source_columns) ∧
    entryFor score source_columns tc
      = ⟨tc, none, ((extract score tc source_columns 5).filter
          (fun m => 60 ≤ m.2)).map (fun m => m.1)⟩ ∧
    (initStatus (entryFor score source_columns tc) = MStatus.Suggested
      ↔ ((extract score tc source_columns 5).filter
          (fun m => 60 ≤ m.2)).map (fun m => m.1) ≠ []) ∧
    (initStatus (entryFor score source_columns tc) = MStatus.Unmapped
      ↔ ((extract score tc source_columns 5).filter
          (fun m => 60 ≤ m.2)).map (fun m => m.1) = []) ∧
    dictGet tc (load_mappings score source_columns target_columns).2
      = none := by
  refine ⟨?_, ?_, ?_, ?_, ?_⟩
  · rw [load_mappings, foldl_loadStep_fst]
    simp
  · rw [entryFor, if_neg hsrc]
  · by_cases hsug : ((extract score tc source_columns 5).filter
        (fun m => 60 ≤ m.2)).map (fun m => m.1) = [] <;>
      simp [initStatus, entryFor, if_neg hsrc, hsug]
  · by_cases hsug : ((extract score tc source_columns 5).filter
        (fun m => 60 ≤ m.2)).map (fun m => m.1) = [] <;>
      simp [initStatus, entryFor, if_neg hsrc, hsug]
  · have hkeys := foldl_loadStep_dict_keys score source_columns
      target_columns ([], []) (by intro p hp; cases hp)
    exact dictGet_eq_none_of_keys
      (fun p hp hpk => hsrc (hpk ▸ hkeys p hp))

/-- C7 witness: the scenario of the specification — target column "E-mail"
has no exact match in source header ["Name", "Email"]; with a scorer rating
"Email" at 80 and "Name" at 20 the suggestion list is ["Email"] and the
status is Suggested; no dict binding is made for "E-mail". -/
theorem load_mappings_fuzzy_suggestions_witness :
    ("E-mail" ∈ (["Name", "E-mail"] : List String) ∧
      "E-mail" ∉ (["Name", "Email"] : List String)) ∧
    (load_mappings (fun _ b => if b = "Email" then 80 else 20)
        ["Name", "Email"] ["Name", "E-mail"]).1
      = (["Name", "E-mail"] : List String).map
          (entryFor (fun _ b => if b = "Email" then 80 else 20)
            ["Name", "Email"]) ∧
    entryFor (fun _ b => if b = "Email" then 80 else 20) ["Name", "Email"]
        "E-mail"
      = ⟨"E-mail", none, ((extract (fun _ b => if b = "Email" then 80 else 20)
          "E-mail" ["Name", "Email"] 5).filter
            (fun m => 60 ≤ m.2)).map (fun m => m.1)⟩ ∧
    ((extract (fun _ b => if b = "Email" then 80 else 20) "E-mail"
        ["Name", "Email"] 5).filter (fun m => 60 ≤ m.2)).map (fun m => m.1)
      = ["Email"] ∧
    initStatus (entryFor (fun _ b => if b = "Email" then 80 else 20)
        ["Name", "Email"] "E-mail") = MStatus.Suggested ∧
    dictGet "E-mail" (load_mappings (fun _ b => if b = "Email" then 80 else 20)
        ["Name", "Email"] ["Name", "E-mail"]).2 = none := by
  have h := load_mappings_fuzzy_suggestions
    (fun _ b => if b = "Email" then 80 else 20) ["Name", "Email"]
    ["Name", "E-mail"] "E-mail" (by decide) (by decide)
  refine ⟨⟨by decide, by decide⟩, h.1, h.2.1, by decide, ?_, h.2.2.2.2⟩
  exact (h.2.2.1).mpr (by decide)

end ExcelConsolidator
